import Mathlib

/-!
# Bitcoin DCA dashboard: schedule generator, DCA simulator, sentiment scorer

A shallow embedding of the three pure functions of `src/src/App.jsx`
(`buildBuySchedule`, `computeDCA`) and `src/api/sentiment.js`
(`scoreText`, `aggregate`, and the scoring part of `handler`), followed by the
properties that the specification states about them.

Modelling conventions.

* A JavaScript `Date` is modelled by its day number (whole days since
  1970-01-01).  Every `Date` that `buildBuySchedule` builds comes from a
  date-only string, hence is a UTC midnight; the local-time accessors
  (`getDate`, `setDate`, `getMonth`, `setMonth`) are modelled for a runtime
  whose local time zone is UTC, where they preserve that time of day.  The
  calendar functions follow the ECMAScript definitions (`DayFromYear`,
  `YearFromTime`, `InLeapYear`, `MonthFromTime`, `DateFromTime`, `MakeDay`).
* The string `"YYYY-MM-DD"` is modelled by the record `ISODate` of its three
  numeric fields.
* JavaScript numbers are modelled by exact rationals (`ℚ`) and integers.
* `String.prototype.toLowerCase` depends on the Unicode case tables, which are
  not part of the repository; `scoreText` takes the lower-casing function as a
  parameter, and `asciiLowerCase` is its restriction to ASCII text.
-/

namespace DcaDashboard

/-! ## Calendar (ECMAScript date arithmetic on day numbers) -/

/-- The date string `"YYYY-MM-DD"`, as its three numeric fields (month is 1-based). -/
structure ISODate where
  year : Int
  month : Int
  day : Int
deriving DecidableEq

/-- ECMAScript `DayFromYear(y)`: day number of the first day of year `y`. -/
def dayFromYear (y : Int) : Int :=
  365 * (y - 1970) + (y - 1969) / 4 - (y - 1901) / 100 + (y - 1601) / 400

/-- ECMAScript `InLeapYear`, as a function of the year: `1` in a leap year, else `0`. -/
def inLeapYear (y : Int) : Int :=
  if (y % 4 = 0 ∧ y % 100 ≠ 0) ∨ y % 400 = 0 then 1 else 0

/-- ECMAScript `YearFromTime`: the largest `y` with `dayFromYear y ≤ z`, computed
from the estimate `1970 + ⌊400 z / 146097⌋`, which is off by at most one
(see `yearFromDay_spec`). -/
def yearFromDay (z : Int) : Int :=
  let y := 1970 + (400 * z) / 146097
  if z < dayFromYear y then y - 1
  else if dayFromYear (y + 1) ≤ z then y + 1
  else y

/-- ECMAScript `DayWithinYear`. -/
def dayWithinYear (z : Int) : Int := z - dayFromYear (yearFromDay z)

/-- Number of days of the year that precede month `m` (0-based), given the
leap-year flag `l`. -/
def monthStart (l : Int) (m : Int) : Int :=
  if m ≤ 0 then 0
  else if m = 1 then 31
  else if m = 2 then 59 + l
  else if m = 3 then 90 + l
  else if m = 4 then 120 + l
  else if m = 5 then 151 + l
  else if m = 6 then 181 + l
  else if m = 7 then 212 + l
  else if m = 8 then 243 + l
  else if m = 9 then 273 + l
  else if m = 10 then 304 + l
  else 334 + l

/-- The table of ECMAScript `MonthFromTime`: month (0-based) of day `d` of a
year with leap-year flag `l`. -/
def monthOfYearDay (l : Int) (d : Int) : Int :=
  if d < 31 then 0
  else if d < 59 + l then 1
  else if d < 90 + l then 2
  else if d < 120 + l then 3
  else if d < 151 + l then 4
  else if d < 181 + l then 5
  else if d < 212 + l then 6
  else if d < 243 + l then 7
  else if d < 273 + l then 8
  else if d < 304 + l then 9
  else if d < 334 + l then 10
  else 11

/-- ECMAScript `MonthFromTime` (0-based month). -/
def monthFromDay (z : Int) : Int :=
  monthOfYearDay (inLeapYear (yearFromDay z)) (dayWithinYear z)

/-- ECMAScript `DateFromTime` (day of the month, from 1). -/
def dateFromDay (z : Int) : Int :=
  dayWithinYear z - monthStart (inLeapYear (yearFromDay z)) (monthFromDay z) + 1

/-- ECMAScript `MakeDay(year, month, date)`: the month may lie outside `0..11`
(it carries into the year) and the date may exceed the length of the month
(it runs on into the following months). -/
def makeDay (year month date : Int) : Int :=
  let ym := year + month / 12
  let mn := month % 12
  dayFromYear ym + monthStart (inLeapYear ym) mn + date - 1

/-- Number of days of month `m` (1-based) of year `y`. -/
def daysInMonth (y m : Int) : Int :=
  if m = 2 then 28 + inLeapYear y
  else if m = 4 ∨ m = 6 ∨ m = 9 ∨ m = 11 then 30
  else 31

/-- A valid calendar date: month in `1..12`, day in `1..daysInMonth`. -/
def ISODate.Valid (c : ISODate) : Prop :=
  1 ≤ c.month ∧ c.month ≤ 12 ∧ 1 ≤ c.day ∧ c.day ≤ daysInMonth c.year c.month

instance (c : ISODate) : Decidable c.Valid := by
  unfold ISODate.Valid; infer_instance

/-- Chronological order of date strings (the order of `"YYYY-MM-DD"` strings). -/
def ISODate.lt (a b : ISODate) : Prop :=
  a.year < b.year ∨ (a.year = b.year ∧ (a.month < b.month ∨ (a.month = b.month ∧ a.day < b.day)))

instance : LT ISODate := ⟨ISODate.lt⟩

instance : LE ISODate := ⟨fun a b => a < b ∨ a = b⟩

instance (a b : ISODate) : Decidable (a < b) := by
  show Decidable (ISODate.lt a b); unfold ISODate.lt; infer_instance

instance (a b : ISODate) : Decidable (a ≤ b) := by
  show Decidable (a < b ∨ a = b); infer_instance

/-- `new Date("YYYY-MM-DD")`: the day number of a date string. -/
def parseDate (s : ISODate) : Int := makeDay s.year (s.month - 1) s.day

/-- `toISODate(ts) = new Date(ts).toISOString().slice(0, 10)`. -/
def toISODate (z : Int) : ISODate := ⟨yearFromDay z, monthFromDay z + 1, dateFromDay z⟩

/-- `Date.prototype.getDate`. -/
def getDate (d : Int) : Int := dateFromDay d

/-- `Date.prototype.getMonth`. -/
def getMonth (d : Int) : Int := monthFromDay d

/-- `Date.prototype.setDate(dt)`: `MakeDay(YearFromTime(t), MonthFromTime(t), dt)`. -/
def setDate (d : Int) (dt : Int) : Int := makeDay (yearFromDay d) (monthFromDay d) dt

/-- `Date.prototype.setMonth(m)`: `MakeDay(YearFromTime(t), m, DateFromTime(t))`. -/
def setMonth (d : Int) (m : Int) : Int := makeDay (yearFromDay d) m (dateFromDay d)

/-- The number of the calendar month of a date, counted in months: consecutive calendar
months have consecutive numbers. -/
def monthIndex (c : ISODate) : Int := 12 * c.year + (c.month - 1)

/-! ## Schedule generator (`buildBuySchedule`, App.jsx 11-22) -/

/-- The purchase cadence; any value other than `'weekly'` and `'biweekly'` is
treated as monthly by the source. -/
inductive Cadence where
  | weekly
  | biweekly
  | monthly
deriving DecidableEq

/-- One pass through the body of the `while` loop after the push: the step on `d`. -/
def advance (cadence : Cadence) (d : Int) : Int :=
  match cadence with
  | Cadence.weekly => setDate d (getDate d + 7)
  | Cadence.biweekly => setDate d (getDate d + 14)
  | Cadence.monthly => setMonth d (getMonth d + 1)

/-- The loop `while (d <= limit) { dates.push(new Date(d)); step }`, with a bound on
the number of iterations. -/
def scheduleLoop (cadence : Cadence) (limit : Int) : Nat → Int → List Int
  | 0, _ => []
  | fuel + 1, d =>
    if d ≤ limit then d :: scheduleLoop cadence limit fuel (advance cadence d) else []

/-- The array `dates` when the loop ends.  Every step moves `d` forward by at least
one day, so `limit - d + 1` iterations are enough (`scheduleLoop_fuel`). -/
def scheduleDays (cadence : Cadence) (d limit : Int) : List Int :=
  scheduleLoop cadence limit (limit - d + 1).toNat d

/-- Embedding of `buildBuySchedule(startDate, endDate, cadence)`. -/
def buildBuySchedule (startDate endDate : ISODate) (cadence : Cadence) : List ISODate :=
  let d := parseDate startDate
  let limit := parseDate endDate
  (scheduleDays cadence d limit).map toISODate

/-! ## DCA simulator (`computeDCA`, App.jsx 30-52) -/

/-- One entry of `timeline`. -/
structure TimelinePoint (κ : Type) where
  date : κ
  invested : ℚ
  btc : ℚ
  value : ℚ
  price : ℚ
deriving DecidableEq

/-- The object `summary`. -/
structure Summary where
  totalInvested : ℚ
  totalBTC : ℚ
  currentValue : ℚ
  pnl : ℚ
  pnlPct : ℚ
  latestPrice : ℚ
deriving DecidableEq

/-- The mutable variables of `computeDCA`: `timeline`, `cumBtc`, `cumInvested`. -/
structure DCAState (κ : Type) where
  timeline : List (TimelinePoint κ)
  cumBtc : ℚ
  cumInvested : ℚ

/-- The result `{ timeline, summary }`. -/
structure DCAResult (κ : Type) where
  timeline : List (TimelinePoint κ)
  summary : Summary

/-- The body of `schedule.forEach`.  `priceMap day = none` stands for an absent key
(for a missing map, `priceMap?.[day]` is `undefined` at every key); `!price`
also holds for a price of `0`. -/
def dcaStep {κ : Type} (priceMap : κ → Option ℚ) (amountPerBuy : ℚ)
    (st : DCAState κ) (day : κ) : DCAState κ :=
  match priceMap day with
  | none => st
  | some price =>
    if price = 0 then st
    else
      let btcBought := amountPerBuy / price
      let cumBtc := st.cumBtc + btcBought
      let cumInvested := st.cumInvested + amountPerBuy
      { timeline := st.timeline ++
          [{ date := day, invested := cumInvested, btc := cumBtc,
             value := cumBtc * price, price := price }],
        cumBtc := cumBtc,
        cumInvested := cumInvested }

/-- The object `summary` built from `latest = timeline[timeline.length - 1]`. -/
def summaryOf {κ : Type} (latest : Option (TimelinePoint κ)) : Summary :=
  match latest with
  | some latest =>
    { totalInvested := latest.invested,
      totalBTC := latest.btc,
      currentValue := latest.value,
      pnl := latest.value - latest.invested,
      pnlPct :=
        if latest.invested = 0 then 0
        else ((latest.value - latest.invested) / latest.invested) * 100,
      latestPrice := latest.price }
  | none =>
    { totalInvested := 0, totalBTC := 0, currentValue := 0, pnl := 0, pnlPct := 0,
      latestPrice := 0 }

/-- Embedding of `computeDCA(priceMap, schedule, amountPerBuy)`. -/
def computeDCA {κ : Type} (priceMap : κ → Option ℚ) (schedule : List κ)
    (amountPerBuy : ℚ) : DCAResult κ :=
  let st := schedule.foldl (dcaStep priceMap amountPerBuy)
    { timeline := [], cumBtc := 0, cumInvested := 0 }
  { timeline := st.timeline, summary := summaryOf st.timeline.getLast? }

/-- The schedule dates that have a price, in schedule order, each with its price. -/
def pricedDates {κ : Type} (priceMap : κ → Option ℚ) (schedule : List κ) : List (κ × ℚ) :=
  schedule.filterMap (fun d => (priceMap d).map (fun p => (d, p)))

/-- The timeline that purchases at the given dated prices add to running totals
`cumBtc`, `cumInvested`: the closed form against which `computeDCA` is compared. -/
def dcaPoints {κ : Type} (amountPerBuy : ℚ) (cumBtc cumInvested : ℚ) :
    List (κ × ℚ) → List (TimelinePoint κ)
  | [] => []
  | (day, price) :: rest =>
    { date := day, invested := cumInvested + amountPerBuy,
      btc := cumBtc + amountPerBuy / price,
      value := (cumBtc + amountPerBuy / price) * price, price := price } ::
      dcaPoints amountPerBuy (cumBtc + amountPerBuy / price) (cumInvested + amountPerBuy) rest

/-- The price mapping `{"2024-01-01": 40000, "2024-01-08": 44000}` of the two-purchase
scenario. -/
def scenarioPrices (d : ISODate) : Option ℚ :=
  if d = ⟨2024, 1, 1⟩ then some 40000
  else if d = ⟨2024, 1, 8⟩ then some 44000
  else none

/-- The schedule `["2024-01-01", "2024-01-08"]` of the two-purchase scenario. -/
def scenarioSchedule : List ISODate := [⟨2024, 1, 1⟩, ⟨2024, 1, 8⟩]

/-! ## Sentiment scorer (`api/sentiment.js`) -/

/-- The positive lexicon. -/
def POS : List String :=
  ["surge", "soar", "bull", "bullish", "rally", "record", "all-time high", "ath", "inflow",
   "adopt", "adoption", "approve", "approval", "sec ok",
   "growth", "gain", "gains", "climb", "spike", "breakout", "positive", "beat", "beats",
   "increase", "expansion", "pump", "accumulate", "hodl"]

/-- The negative lexicon. -/
def NEG : List String :=
  ["drop", "dump", "bear", "bearish", "selloff", "sell-off", "down", "plunge", "crash",
   "fear", "ban", "banned", "restrict", "lawsuit", "sue", "sues",
   "hack", "hacked", "exploit", "outflow", "liquidation", "liquidations", "recession",
   "decline", "decrease", "negative", "miss", "misses"]

/-- Whether `w` occurs in `s` as a block of consecutive characters. -/
def includesChars (w : List Char) : List Char → Bool
  | [] => w.isPrefixOf []
  | c :: s => w.isPrefixOf (c :: s) || includesChars w s

/-- `s.includes(w)`. -/
def includes (s w : String) : Bool := includesChars w.toList s.toList

/-- `String.prototype.toLowerCase` on ASCII text: the letters `A`-`Z` are mapped to
`a`-`z`, every other character is kept. -/
def asciiLowerCase (t : String) : String := ⟨t.toList.map Char.toLower⟩

/-- `Math.round`: the nearest integer, halves towards `+∞`. -/
def mathRound (x : ℚ) : Int := ⌊x + 1 / 2⌋

/-- The raw score after the two `forEach` passes over `POS` and `NEG`. -/
def rawScore (s : String) : Int :=
  let score := POS.foldl (fun score w => if includes s w then score + 2 else score) 0
  NEG.foldl (fun score w => if includes s w then score - 2 else score) score

/-- The two clamping statements `if (score > 20) score = 20; if (score < -20) score = -20`. -/
def clampScore (score : Int) : Int :=
  let score := if score > 20 then 20 else score
  if score < -20 then -20 else score

/-- Embedding of `scoreText(t)`; `toLowerCase` is the runtime's lower-casing function. -/
def scoreText (toLowerCase : String → String) (t : String) : Int :=
  if t = "" then 0
  else
    let s := toLowerCase t
    let score := clampScore (rawScore s)
    mathRound ((((score : ℚ) + 20) / 40) * 100)

/-- The number of entries of `POS` that occur in `s`. -/
def posHits (s : String) : Nat := (POS.filter (fun w => includes s w)).length

/-- The number of entries of `NEG` that occur in `s`. -/
def negHits (s : String) : Nat := (NEG.filter (fun w => includes s w)).length

/-- Embedding of `aggregate(scores)`. -/
def aggregate (scores : List Int) : Int :=
  if scores.length = 0 then 50
  else
    let avg : ℚ := ((scores.foldl (fun a b => a + b) 0 : Int) : ℚ) / (scores.length : ℚ)
    mathRound avg

/-- The fields of a parsed feed item that `handler` reads for scoring and ordering;
`none` is an absent field. -/
structure FeedItem where
  title : Option String
  link : Option String
  guid : Option String
  contentSnippet : Option String
  content : Option String
  pubDate : Option String
  isoDate : Option String

/-- An entry of `items` (the field `source`, a rewriting of the feed title, is left out). -/
structure NewsItem where
  title : String
  link : String
  pubDate : Option String
  score : Int

/-- The JavaScript `x || y` on optional strings: the first operand unless it is absent
or empty. -/
def orElse (x : Option String) (y : Option String) : Option String :=
  match x with
  | some s => if s = "" then y else some s
  | none => y

/-- The JavaScript `x || lit` with a string literal as the last alternative. -/
def orLit (x : Option String) (lit : String) : String :=
  match x with
  | some s => if s = "" then lit else s
  | none => lit

/-- The text that `handler` scores for an item:
`(it.title || '') + ' ' + (it.contentSnippet || it.content || '')`. -/
def itemText (it : FeedItem) : String :=
  orLit it.title "" ++ " " ++ orLit (orElse it.contentSnippet it.content) ""

/-- The object pushed on `items` for a feed item. -/
def mkItem (toLowerCase : String → String) (it : FeedItem) : NewsItem :=
  { title := orLit it.title "",
    link := orLit (orElse it.link it.guid) "#",
    pubDate := orElse it.pubDate it.isoDate,
    score := scoreText toLowerCase (itemText it) }

/-- The array `items` after the loop over the feeds: the first ten items of every feed
that could be fetched, in feed order. -/
def collectItems (toLowerCase : String → String) (feeds : List (List FeedItem)) :
    List NewsItem :=
  feeds.foldl (fun items feed => items ++ (feed.take 10).map (mkItem toLowerCase)) []

/-- The array `trimmed`: the items in the order that `items.sort` leaves them in
(`sortItems`, a rearrangement of the array), cut to twenty. -/
def trimmedItems (toLowerCase : String → String) (sortItems : List NewsItem → List NewsItem)
    (feeds : List (List FeedItem)) : List NewsItem :=
  (sortItems (collectItems toLowerCase feeds)).take 20

/-- The value `overall` sent as `score`. -/
def overallScore (toLowerCase : String → String) (sortItems : List NewsItem → List NewsItem)
    (feeds : List (List FeedItem)) : Int :=
  aggregate ((trimmedItems toLowerCase sortItems feeds).map (fun i => i.score))

/-! ## Calendar lemmas -/

theorem yearFromDay_spec (z : Int) :
    dayFromYear (yearFromDay z) ≤ z ∧ z < dayFromYear (yearFromDay z + 1) := by
  unfold yearFromDay
  simp only
  split_ifs with h1 h2
  · refine ⟨?_, by simpa using h1⟩
    unfold dayFromYear at *
    omega
  · refine ⟨by omega, ?_⟩
    unfold dayFromYear at *
    omega
  · exact ⟨by omega, by omega⟩

theorem inLeapYear_cases (y : Int) : inLeapYear y = 0 ∨ inLeapYear y = 1 := by
  unfold inLeapYear
  split_ifs <;> simp

theorem dayFromYear_succ (y : Int) :
    dayFromYear (y + 1) = dayFromYear y + 365 + inLeapYear y := by
  unfold dayFromYear inLeapYear
  split_ifs <;> omega

theorem dayFromYear_lt {a b : Int} (h : a < b) : dayFromYear a < dayFromYear b := by
  unfold dayFromYear
  omega

theorem dayFromYear_le {a b : Int} (h : a ≤ b) : dayFromYear a ≤ dayFromYear b := by
  rcases h.lt_or_eq with h | h
  · exact (dayFromYear_lt h).le
  · rw [h]

/-- The year of a day is the only year whose days include it. -/
theorem yearFromDay_unique {z y : Int} (h1 : dayFromYear y ≤ z) (h2 : z < dayFromYear (y + 1)) :
    yearFromDay z = y := by
  have hs := yearFromDay_spec z
  by_contra hne
  rcases lt_or_gt_of_ne hne with h | h
  · have := dayFromYear_le (show yearFromDay z + 1 ≤ y by omega)
    omega
  · have := dayFromYear_le (show y + 1 ≤ yearFromDay z by omega)
    omega

theorem dayWithinYear_bounds (z : Int) :
    0 ≤ dayWithinYear z ∧ dayWithinYear z < 365 + inLeapYear (yearFromDay z) := by
  have hs := yearFromDay_spec z
  have := dayFromYear_succ (yearFromDay z)
  unfold dayWithinYear
  omega

theorem monthOfYearDay_cases (l d m : Int) (hm : monthOfYearDay l d = m) :
    (m = 0 ∧ d < 31) ∨ (m = 1 ∧ 31 ≤ d ∧ d < 59 + l) ∨ (m = 2 ∧ 59 + l ≤ d ∧ d < 90 + l) ∨
    (m = 3 ∧ 90 + l ≤ d ∧ d < 120 + l) ∨ (m = 4 ∧ 120 + l ≤ d ∧ d < 151 + l) ∨
    (m = 5 ∧ 151 + l ≤ d ∧ d < 181 + l) ∨ (m = 6 ∧ 181 + l ≤ d ∧ d < 212 + l) ∨
    (m = 7 ∧ 212 + l ≤ d ∧ d < 243 + l) ∨ (m = 8 ∧ 243 + l ≤ d ∧ d < 273 + l) ∨
    (m = 9 ∧ 273 + l ≤ d ∧ d < 304 + l) ∨ (m = 10 ∧ 304 + l ≤ d ∧ d < 334 + l) ∨
    (m = 11 ∧ 334 + l ≤ d) := by
  unfold monthOfYearDay at hm
  by_cases h0 : d < 31
  · rw [if_pos h0] at hm; left; omega
  rw [if_neg h0] at hm
  by_cases h1 : d < 59 + l
  · rw [if_pos h1] at hm; right; left; omega
  rw [if_neg h1] at hm
  by_cases h2 : d < 90 + l
  · rw [if_pos h2] at hm; right; right; left; omega
  rw [if_neg h2] at hm
  by_cases h3 : d < 120 + l
  · rw [if_pos h3] at hm; right; right; right; left; omega
  rw [if_neg h3] at hm
  by_cases h4 : d < 151 + l
  · rw [if_pos h4] at hm; right; right; right; right; left; omega
  rw [if_neg h4] at hm
  by_cases h5 : d < 181 + l
  · rw [if_pos h5] at hm; right; right; right; right; right; left; omega
  rw [if_neg h5] at hm
  by_cases h6 : d < 212 + l
  · rw [if_pos h6] at hm; right; right; right; right; right; right; left; omega
  rw [if_neg h6] at hm
  by_cases h7 : d < 243 + l
  · rw [if_pos h7] at hm; right; right; right; right; right; right; right; left; omega
  rw [if_neg h7] at hm
  by_cases h8 : d < 273 + l
  · rw [if_pos h8] at hm; right; right; right; right; right; right; right; right; left; omega
  rw [if_neg h8] at hm
  by_cases h9 : d < 304 + l
  · rw [if_pos h9] at hm; right; right; right; right; right; right; right; right; right; left; omega
  rw [if_neg h9] at hm
  by_cases h10 : d < 334 + l
  · rw [if_pos h10] at hm; right; right; right; right; right; right; right; right; right; right; left; omega
  rw [if_neg h10] at hm
  right; right; right; right; right; right; right; right; right; right; right; omega

theorem monthStart_cases (l m r : Int) (hr : monthStart l m = r) :
    (m ≤ 0 ∧ r = 0) ∨ (m = 1 ∧ r = 31) ∨ (m = 2 ∧ r = 59 + l) ∨ (m = 3 ∧ r = 90 + l) ∨
    (m = 4 ∧ r = 120 + l) ∨ (m = 5 ∧ r = 151 + l) ∨ (m = 6 ∧ r = 181 + l) ∨
    (m = 7 ∧ r = 212 + l) ∨ (m = 8 ∧ r = 243 + l) ∨ (m = 9 ∧ r = 273 + l) ∨
    (m = 10 ∧ r = 304 + l) ∨ (11 ≤ m ∧ r = 334 + l) := by
  unfold monthStart at hr
  by_cases h0 : m ≤ 0
  · rw [if_pos h0] at hr; left; omega
  rw [if_neg h0] at hr
  by_cases h1 : m = 1
  · rw [if_pos h1] at hr; right; left; omega
  rw [if_neg h1] at hr
  by_cases h2 : m = 2
  · rw [if_pos h2] at hr; right; right; left; omega
  rw [if_neg h2] at hr
  by_cases h3 : m = 3
  · rw [if_pos h3] at hr; right; right; right; left; omega
  rw [if_neg h3] at hr
  by_cases h4 : m = 4
  · rw [if_pos h4] at hr; right; right; right; right; left; omega
  rw [if_neg h4] at hr
  by_cases h5 : m = 5
  · rw [if_pos h5] at hr; right; right; right; right; right; left; omega
  rw [if_neg h5] at hr
  by_cases h6 : m = 6
  · rw [if_pos h6] at hr; right; right; right; right; right; right; left; omega
  rw [if_neg h6] at hr
  by_cases h7 : m = 7
  · rw [if_pos h7] at hr; right; right; right; right; right; right; right; left; omega
  rw [if_neg h7] at hr
  by_cases h8 : m = 8
  · rw [if_pos h8] at hr; right; right; right; right; right; right; right; right; left; omega
  rw [if_neg h8] at hr
  by_cases h9 : m = 9
  · rw [if_pos h9] at hr; right; right; right; right; right; right; right; right; right; left; omega
  rw [if_neg h9] at hr
  by_cases h10 : m = 10
  · rw [if_pos h10] at hr; right; right; right; right; right; right; right; right; right; right; left; omega
  rw [if_neg h10] at hr
  right; right; right; right; right; right; right; right; right; right; right; omega


theorem daysInMonth_cases (y m r : Int) (hr : daysInMonth y m = r) :
    (m = 2 ∧ r = 28 + inLeapYear y) ∨
    ((m = 4 ∨ m = 6 ∨ m = 9 ∨ m = 11) ∧ r = 30) ∨
    (m ≠ 2 ∧ m ≠ 4 ∧ m ≠ 6 ∧ m ≠ 9 ∧ m ≠ 11 ∧ r = 31) := by
  unfold daysInMonth at hr
  by_cases h2 : m = 2
  · rw [if_pos h2] at hr; left; omega
  rw [if_neg h2] at hr
  by_cases h3 : m = 4 ∨ m = 6 ∨ m = 9 ∨ m = 11
  · rw [if_pos h3] at hr; right; left; exact ⟨h3, hr.symm⟩
  rw [if_neg h3] at hr
  right; right; omega

theorem monthOfYearDay_range (l d : Int) :
    0 ≤ monthOfYearDay l d ∧ monthOfYearDay l d ≤ 11 := by
  have := monthOfYearDay_cases l d _ rfl
  omega

theorem monthOfYearDay_mono (l : Int) (hl : l = 0 ∨ l = 1) {d e : Int} (h : d ≤ e) :
    monthOfYearDay l d ≤ monthOfYearDay l e := by
  have h1 := monthOfYearDay_cases l d _ rfl
  have h2 := monthOfYearDay_cases l e _ rfl
  omega

/-- The day of the month lies within the month. -/
theorem monthOfYearDay_spec (y d : Int) (h0 : 0 ≤ d) (h1 : d < 365 + inLeapYear y) :
    1 ≤ d - monthStart (inLeapYear y) (monthOfYearDay (inLeapYear y) d) + 1 ∧
    d - monthStart (inLeapYear y) (monthOfYearDay (inLeapYear y) d) + 1
      ≤ daysInMonth y (monthOfYearDay (inLeapYear y) d + 1) := by
  have hl := inLeapYear_cases y
  have hc := monthOfYearDay_cases (inLeapYear y) d _ rfl
  have hs := monthStart_cases (inLeapYear y) (monthOfYearDay (inLeapYear y) d) _ rfl
  have hd := daysInMonth_cases y (monthOfYearDay (inLeapYear y) d + 1) _ rfl
  omega

/-- The table `monthOfYearDay` inverts `monthStart` on the days of a month. -/
theorem monthOfYearDay_monthStart (y m d : Int) (hm0 : 0 ≤ m) (hm1 : m ≤ 11)
    (hd0 : 1 ≤ d) (hd1 : d ≤ daysInMonth y (m + 1)) :
    monthOfYearDay (inLeapYear y) (monthStart (inLeapYear y) m + d - 1) = m := by
  have hl := inLeapYear_cases y
  have hs := monthStart_cases (inLeapYear y) m _ rfl
  have hd := daysInMonth_cases y (m + 1) _ rfl
  have hc := monthOfYearDay_cases (inLeapYear y) (monthStart (inLeapYear y) m + d - 1) _ rfl
  omega

theorem monthStart_nonneg (l m : Int) (hl : l = 0 ∨ l = 1) : 0 ≤ monthStart l m := by
  have hs := monthStart_cases l m _ rfl
  omega

theorem monthStart_succ_ge (l m : Int) (hl : l = 0 ∨ l = 1) (hm0 : 0 ≤ m) (hm1 : m < 11) :
    monthStart l m + 28 ≤ monthStart l (m + 1) := by
  have h1 := monthStart_cases l m _ rfl
  have h2 := monthStart_cases l (m + 1) _ rfl
  omega

theorem monthStart_le (l m : Int) (hl : l = 0 ∨ l = 1) : monthStart l m ≤ 334 + l := by
  have hs := monthStart_cases l m _ rfl
  omega

theorem monthStart_add_le (y m d : Int) (hm0 : 0 ≤ m) (hm1 : m ≤ 11)
    (hd1 : d ≤ daysInMonth y (m + 1)) :
    monthStart (inLeapYear y) m + d ≤ 365 + inLeapYear y := by
  have hl := inLeapYear_cases y
  have hs := monthStart_cases (inLeapYear y) m _ rfl
  have hd := daysInMonth_cases y (m + 1) _ rfl
  omega

theorem monthFromDay_range (z : Int) : 0 ≤ monthFromDay z ∧ monthFromDay z ≤ 11 :=
  monthOfYearDay_range _ _

theorem makeDay_of_month_range (y m d : Int) (h0 : 0 ≤ m) (h1 : m ≤ 11) :
    makeDay y m d = dayFromYear y + monthStart (inLeapYear y) m + d - 1 := by
  unfold makeDay
  have e1 : m / 12 = 0 := by omega
  have e2 : m % 12 = m := by omega
  simp [e1, e2]

/-- Building a date from the calendar fields of a day gives the day back, with the
date field shifted by `k`. -/
theorem setDate_getDate_add (z k : Int) : setDate z (getDate z + k) = z + k := by
  have hm := monthFromDay_range z
  unfold setDate getDate
  rw [makeDay_of_month_range _ _ _ hm.1 hm.2]
  unfold dateFromDay dayWithinYear
  omega

theorem parseDate_toISODate (z : Int) : parseDate (toISODate z) = z := by
  have hm := monthFromDay_range z
  unfold parseDate toISODate
  simp only [add_sub_cancel_right]
  rw [makeDay_of_month_range _ _ _ hm.1 hm.2]
  unfold dateFromDay dayWithinYear
  omega

theorem toISODate_valid (z : Int) : (toISODate z).Valid := by
  have hm := monthFromDay_range z
  have hb := dayWithinYear_bounds z
  have hs := monthOfYearDay_spec (yearFromDay z) (dayWithinYear z) hb.1 hb.2
  unfold ISODate.Valid toISODate
  simp only
  refine ⟨by omega, by omega, ?_, ?_⟩
  · exact hs.1
  · exact hs.2

theorem toISODate_parseDate (c : ISODate) (hc : c.Valid) : toISODate (parseDate c) = c := by
  obtain ⟨y, m, d⟩ := c
  obtain ⟨hm0, hm1, hd0, hd1⟩ := hc
  simp only at hm0 hm1 hd0 hd1
  have hl := inLeapYear_cases y
  have hz : parseDate ⟨y, m, d⟩ = dayFromYear y + monthStart (inLeapYear y) (m - 1) + d - 1 := by
    show makeDay y (m - 1) d = _
    exact makeDay_of_month_range _ _ _ (by omega) (by omega)
  have hmon := monthOfYearDay_monthStart y (m - 1) d (by omega) (by omega) hd0
    (by simpa using hd1)
  have hms0 := monthStart_nonneg (inLeapYear y) (m - 1) hl
  have hdim := monthStart_add_le y (m - 1) d (by omega) (by omega) (by simpa using hd1)
  have hy : yearFromDay (parseDate ⟨y, m, d⟩) = y := by
    apply yearFromDay_unique
    · omega
    · rw [dayFromYear_succ]; omega
  have hdw : dayWithinYear (parseDate ⟨y, m, d⟩) = monthStart (inLeapYear y) (m - 1) + d - 1 := by
    unfold dayWithinYear
    rw [hy, hz]; omega
  have hmf : monthFromDay (parseDate ⟨y, m, d⟩) = m - 1 := by
    unfold monthFromDay
    rw [hy, hdw, hmon]
  have hdf : dateFromDay (parseDate ⟨y, m, d⟩) = d := by
    unfold dateFromDay
    rw [hy, hdw, hmf]; omega
  unfold toISODate
  rw [hy, hmf, hdf]
  simp

theorem toISODate_lt {a b : Int} (h : a < b) : toISODate a < toISODate b := by
  have ha := yearFromDay_spec a
  have hb := yearFromDay_spec b
  have hyle : yearFromDay a ≤ yearFromDay b := by
    by_contra hc
    have := dayFromYear_le (show yearFromDay b + 1 ≤ yearFromDay a by omega)
    omega
  show ISODate.lt _ _
  unfold ISODate.lt toISODate
  simp only
  rcases hyle.lt_or_eq with hy | hy
  · exact Or.inl hy
  · right
    refine ⟨hy, ?_⟩
    have hd : dayWithinYear a < dayWithinYear b := by
      unfold dayWithinYear; rw [hy]; omega
    have hmle : monthFromDay a ≤ monthFromDay b := by
      unfold monthFromDay; rw [hy]
      exact monthOfYearDay_mono _ (inLeapYear_cases _) hd.le
    rcases hmle.lt_or_eq with hm | hm
    · left; omega
    · right
      refine ⟨by omega, ?_⟩
      unfold dateFromDay
      rw [hy, hm]
      omega

theorem ISODate.lt_irrefl (a : ISODate) : ¬ a < a := by
  show ¬ ISODate.lt a a
  unfold ISODate.lt
  omega

theorem ISODate.lt_asymm {a b : ISODate} (h : a < b) : ¬ b < a := by
  have h1 : ISODate.lt a b := h
  show ¬ ISODate.lt b a
  unfold ISODate.lt at *
  omega

theorem ISODate.not_lt_of_le {a b : ISODate} (h : a ≤ b) : ¬ b < a := by
  rcases h with h | h
  · exact ISODate.lt_asymm h
  · subst h; exact ISODate.lt_irrefl a

theorem toISODate_le {a b : Int} (h : a ≤ b) : toISODate a ≤ toISODate b := by
  rcases h.lt_or_eq with h | h
  · exact Or.inl (toISODate_lt h)
  · exact Or.inr (by rw [h])

theorem parseDate_lt_iff {a b : ISODate} (ha : a.Valid) (hb : b.Valid) :
    parseDate a < parseDate b ↔ a < b := by
  constructor
  · intro h
    have := toISODate_lt h
    rwa [toISODate_parseDate a ha, toISODate_parseDate b hb] at this
  · intro h
    by_contra hc
    have := toISODate_le (not_lt.mp hc)
    rw [toISODate_parseDate a ha, toISODate_parseDate b hb] at this
    exact ISODate.not_lt_of_le this h

theorem parseDate_le_iff {a b : ISODate} (ha : a.Valid) (hb : b.Valid) :
    parseDate a ≤ parseDate b ↔ a ≤ b := by
  constructor
  · intro h
    have := toISODate_le h
    rwa [toISODate_parseDate a ha, toISODate_parseDate b hb] at this
  · intro h
    by_contra hc
    exact ISODate.not_lt_of_le h ((parseDate_lt_iff hb ha).mp (not_le.mp hc))

/-! ## The schedule loop -/

theorem advance_weekly (d : Int) : advance Cadence.weekly d = d + 7 :=
  setDate_getDate_add d 7

theorem advance_biweekly (d : Int) : advance Cadence.biweekly d = d + 14 :=
  setDate_getDate_add d 14

/-- A monthly step moves the date forward by at least 28 and at most 31 days. -/
theorem advance_monthly_bounds (d : Int) :
    d + 28 ≤ advance Cadence.monthly d ∧ advance Cadence.monthly d ≤ d + 31 := by
  have hm := monthFromDay_range d
  have hl := inLeapYear_cases (yearFromDay d)
  have hd : d = dayFromYear (yearFromDay d) +
      monthStart (inLeapYear (yearFromDay d)) (monthFromDay d) + dateFromDay d - 1 := by
    unfold dateFromDay dayWithinYear
    omega
  show d + 28 ≤ setMonth d (getMonth d + 1) ∧ setMonth d (getMonth d + 1) ≤ d + 31
  unfold setMonth getMonth
  by_cases h11 : monthFromDay d = 11
  · have e : makeDay (yearFromDay d) (monthFromDay d + 1) (dateFromDay d) =
        dayFromYear (yearFromDay d + 1) +
          monthStart (inLeapYear (yearFromDay d + 1)) 0 + dateFromDay d - 1 := by
      unfold makeDay
      rw [h11]
      norm_num
    have h0 : monthStart (inLeapYear (yearFromDay d + 1)) 0 = 0 := by
      unfold monthStart; simp
    have hs := monthStart_cases (inLeapYear (yearFromDay d)) (monthFromDay d) _ rfl
    rw [e, h0, dayFromYear_succ]
    omega
  · rw [makeDay_of_month_range _ _ _ (by omega) (by omega)]
    have h1 := monthStart_cases (inLeapYear (yearFromDay d)) (monthFromDay d) _ rfl
    have h2 := monthStart_cases (inLeapYear (yearFromDay d)) (monthFromDay d + 1) _ rfl
    omega

/-- Every step of the loop moves the date strictly forward. -/
theorem advance_gt (cadence : Cadence) (d : Int) : d < advance cadence d := by
  cases cadence
  · rw [advance_weekly]; omega
  · rw [advance_biweekly]; omega
  · have := advance_monthly_bounds d; omega

/-- Beyond `limit - d + 1` iterations the bound on the loop plays no role. -/
theorem scheduleLoop_fuel (cadence : Cadence) (limit : Int) :
    ∀ (f g : Nat) (d : Int), (limit - d + 1).toNat ≤ f → (limit - d + 1).toNat ≤ g →
      scheduleLoop cadence limit f d = scheduleLoop cadence limit g d := by
  intro f
  induction f with
  | zero =>
    intro g d hf _
    cases g with
    | zero => rfl
    | succ g =>
      have : ¬ d ≤ limit := by omega
      simp [scheduleLoop, this]
  | succ f ih =>
    intro g d hf hg
    cases g with
    | zero =>
      have : ¬ d ≤ limit := by omega
      simp [scheduleLoop, this]
    | succ g =>
      have hadv := advance_gt cadence d
      by_cases h : d ≤ limit
      · simp only [scheduleLoop, if_pos h]
        rw [ih g (advance cadence d) (by omega) (by omega)]
      · simp [scheduleLoop, h]

/-- The recursion equation of the `while` loop. -/
theorem scheduleDays_eq (cadence : Cadence) (d limit : Int) :
    scheduleDays cadence d limit =
      if d ≤ limit then d :: scheduleDays cadence (advance cadence d) limit else [] := by
  have hadv := advance_gt cadence d
  unfold scheduleDays
  by_cases h : d ≤ limit
  · rw [if_pos h]
    obtain ⟨n, hn⟩ : ∃ n, (limit - d + 1).toNat = n + 1 := ⟨(limit - d).toNat, by omega⟩
    rw [hn]
    simp only [scheduleLoop, if_pos h]
    rw [scheduleLoop_fuel cadence limit n _ (advance cadence d) (by omega) le_rfl]
  · rw [if_neg h]
    have : (limit - d + 1).toNat = 0 := by omega
    rw [this]
    rfl

theorem scheduleDays_of_gt (cadence : Cadence) {d limit : Int} (h : limit < d) :
    scheduleDays cadence d limit = [] := by
  rw [scheduleDays_eq, if_neg (by omega)]

theorem scheduleDays_of_le (cadence : Cadence) {d limit : Int} (h : d ≤ limit) :
    scheduleDays cadence d limit = d :: scheduleDays cadence (advance cadence d) limit := by
  rw [scheduleDays_eq, if_pos h]

/-- Induction along the loop: a property of the dates array that holds when the loop
does not run, and is carried over one iteration, holds of every run. -/
theorem scheduleDays_induction (cadence : Cadence) (limit : Int)
    (P : Int → List Int → Prop)
    (hnil : ∀ d, limit < d → P d [])
    (hcons : ∀ d, d ≤ limit → P (advance cadence d) (scheduleDays cadence (advance cadence d) limit) →
      P d (d :: scheduleDays cadence (advance cadence d) limit)) :
    ∀ d, P d (scheduleDays cadence d limit) := by
  have key : ∀ (n : Nat) (d : Int), (limit - d + 1).toNat ≤ n →
      P d (scheduleDays cadence d limit) := by
    intro n
    induction n with
    | zero =>
      intro d hd
      rw [scheduleDays_of_gt cadence (by omega)]
      exact hnil d (by omega)
    | succ n ih =>
      intro d hd
      by_cases h : d ≤ limit
      · rw [scheduleDays_of_le cadence h]
        have hadv := advance_gt cadence d
        exact hcons d h (ih _ (by omega))
      · rw [scheduleDays_of_gt cadence (by omega)]
        exact hnil d (by omega)
  intro d
  exact key _ d le_rfl

theorem scheduleDays_bounds (cadence : Cadence) (limit : Int) (d : Int) :
    ∀ x ∈ scheduleDays cadence d limit, d ≤ x ∧ x ≤ limit := by
  refine scheduleDays_induction cadence limit (fun d l => ∀ x ∈ l, d ≤ x ∧ x ≤ limit) ?_ ?_ d
  · intro d _ x hx
    simp at hx
  · intro d hd ih x hx
    have hadv := advance_gt cadence d
    rcases List.mem_cons.mp hx with h | h
    · subst h; exact ⟨le_rfl, hd⟩
    · have := ih x h
      omega

theorem scheduleDays_pairwise (cadence : Cadence) (limit : Int) (d : Int) :
    (scheduleDays cadence d limit).Pairwise (fun a b => a < b) := by
  refine scheduleDays_induction cadence limit (fun _ l => l.Pairwise (fun a b => a < b)) ?_ ?_ d
  · intro d _
    exact List.Pairwise.nil
  · intro d _ ih
    have hadv := advance_gt cadence d
    refine List.Pairwise.cons ?_ ih
    intro x hx
    have := scheduleDays_bounds cadence limit _ x hx
    omega

/-- With a fixed step of `k` days the loop lists `d, d + k, d + 2k, ...` up to `limit`. -/
theorem scheduleDays_fixed_step (cadence : Cadence) (k : Int)
    (hk : (cadence = Cadence.weekly ∧ k = 7) ∨ (cadence = Cadence.biweekly ∧ k = 14))
    (limit : Int) (d : Int) :
    scheduleDays cadence d limit =
      (List.range ((limit - d) / k + 1).toNat).map (fun (i : Nat) => d + k * (i : Int)) := by
  have hstep : ∀ e, advance cadence e = e + k := by
    intro e
    rcases hk with ⟨hc, hk⟩ | ⟨hc, hk⟩
    · rw [hc, hk]; exact advance_weekly e
    · rw [hc, hk]; exact advance_biweekly e
  refine scheduleDays_induction cadence limit
    (fun d l => l = (List.range ((limit - d) / k + 1).toNat).map (fun (i : Nat) => d + k * (i : Int)))
    ?_ ?_ d
  · intro d hd
    have : ((limit - d) / k + 1).toNat = 0 := by
      rcases hk with ⟨_, hk⟩ | ⟨_, hk⟩ <;> subst hk <;> omega
    rw [this]
    rfl
  · intro d hd ih
    rw [ih, hstep]
    have : ((limit - d) / k + 1).toNat = ((limit - (d + k)) / k + 1).toNat + 1 := by
      rcases hk with ⟨_, hk⟩ | ⟨_, hk⟩ <;> subst hk <;> omega
    rw [this, List.range_succ_eq_map, List.map_cons, List.map_map]
    congr 1
    · simp
    · apply List.map_congr_left
      intro i _
      simp only [Function.comp, Nat.cast_succ]
      ring

/-! ## The DCA fold -/

theorem pricedDates_cons_none {κ : Type} (priceMap : κ → Option ℚ) (day : κ) (rest : List κ)
    (h : priceMap day = none) :
    pricedDates priceMap (day :: rest) = pricedDates priceMap rest := by
  simp [pricedDates, List.filterMap_cons, h]

theorem pricedDates_cons_some {κ : Type} {priceMap : κ → Option ℚ} {day : κ} (rest : List κ)
    {p : ℚ} (h : priceMap day = some p) :
    pricedDates priceMap (day :: rest) = (day, p) :: pricedDates priceMap rest := by
  simp [pricedDates, List.filterMap_cons, h]

/-- The state after the `forEach` loop, started from any state: the timeline grows by
`dcaPoints` of the priced dates, and the running totals by the sums of the purchases. -/
theorem foldl_dcaStep {κ : Type} (priceMap : κ → Option ℚ) (a : ℚ) (schedule : List κ)
    (hp : ∀ d ∈ schedule, ∀ p, priceMap d = some p → p ≠ 0) (st : DCAState κ) :
    (schedule.foldl (dcaStep priceMap a) st).timeline =
      st.timeline ++ dcaPoints a st.cumBtc st.cumInvested (pricedDates priceMap schedule) := by
  induction schedule generalizing st with
  | nil => simp [pricedDates, dcaPoints]
  | cons day rest ih =>
    have hrest : ∀ d ∈ rest, ∀ p, priceMap d = some p → p ≠ 0 :=
      fun d hd => hp d (List.mem_cons_of_mem _ hd)
    rw [List.foldl_cons, ih hrest]
    rcases hday : priceMap day with _ | p
    · rw [pricedDates_cons_none priceMap day rest hday]
      simp [dcaStep, hday]
    · have hne : p ≠ 0 := hp day (List.mem_cons_self _ _) p hday
      rw [pricedDates_cons_some rest hday]
      simp [dcaStep, hday, hne, dcaPoints]

theorem dcaPoints_length {κ : Type} (a cb ci : ℚ) (pd : List (κ × ℚ)) :
    (dcaPoints a cb ci pd).length = pd.length := by
  induction pd generalizing cb ci with
  | nil => rfl
  | cons x rest ih =>
    obtain ⟨d, p⟩ := x
    simp [dcaPoints, ih]

/-- The `i`-th point of `dcaPoints`. -/
theorem dcaPoints_getElem? {κ : Type} (a cb ci : ℚ) (pd : List (κ × ℚ)) (i : Nat) :
    (dcaPoints a cb ci pd)[i]? = pd[i]?.map (fun dp =>
      { date := dp.1, invested := ci + a * ((i : ℚ) + 1),
        btc := cb + ((pd.take (i + 1)).map (fun x => a / x.2)).sum,
        value := (cb + ((pd.take (i + 1)).map (fun x => a / x.2)).sum) * dp.2,
        price := dp.2 }) := by
  induction pd generalizing cb ci i with
  | nil => simp [dcaPoints]
  | cons x rest ih =>
    obtain ⟨d, p⟩ := x
    cases i with
    | zero => simp [dcaPoints]
    | succ i =>
      simp only [dcaPoints, List.getElem?_cons_succ, ih, List.take_succ_cons, List.map_cons,
        List.sum_cons]
      rcases rest[i]? with _ | y
      · rfl
      · simp only [Option.map_some', Option.some.injEq, TimelinePoint.mk.injEq, true_and]
        push_cast
        refine ⟨by ring, by ring, ?_, trivial⟩
        ring

/-- The last point of `dcaPoints`. -/
theorem dcaPoints_getLast? {κ : Type} (a cb ci : ℚ) (pd : List (κ × ℚ)) :
    (dcaPoints a cb ci pd).getLast? = pd.getLast?.map (fun dp =>
      { date := dp.1, invested := ci + a * (pd.length : ℚ),
        btc := cb + (pd.map (fun x => a / x.2)).sum,
        value := (cb + (pd.map (fun x => a / x.2)).sum) * dp.2,
        price := dp.2 }) := by
  rw [List.getLast?_eq_getElem?, List.getLast?_eq_getElem?, dcaPoints_length,
    dcaPoints_getElem?]
  rcases pd with _ | ⟨x, rest⟩
  · simp
  · have h1 : (x :: rest).length - 1 + 1 = (x :: rest).length := by simp
    rw [h1, List.take_length]
    have h2 : (((x :: rest).length - 1 : Nat) : ℚ) + 1 = ((x :: rest).length : ℚ) := by
      simp
    rw [h2]

/-- When every schedule date has a price, the priced dates are the schedule dates. -/
theorem pricedDates_of_all_priced {κ : Type} (priceMap : κ → Option ℚ) (schedule : List κ)
    (h : ∀ d ∈ schedule, ∃ p, priceMap d = some p) :
    pricedDates priceMap schedule = schedule.map (fun d => (d, (priceMap d).getD 0)) := by
  induction schedule with
  | nil => rfl
  | cons day rest ih =>
    obtain ⟨p, hp⟩ := h day (List.mem_cons_self _ _)
    rw [pricedDates_cons_some rest hp, ih (fun d hd => h d (List.mem_cons_of_mem _ hd))]
    simp [hp]

theorem pricedDates_of_none {κ : Type} (priceMap : κ → Option ℚ) (schedule : List κ)
    (h : ∀ d ∈ schedule, priceMap d = none) : pricedDates priceMap schedule = [] := by
  induction schedule with
  | nil => rfl
  | cons day rest ih =>
    rw [pricedDates_cons_none priceMap day rest (h day (List.mem_cons_self _ _))]
    exact ih (fun d hd => h d (List.mem_cons_of_mem _ hd))

theorem timeline_eq_dcaPoints {κ : Type} (priceMap : κ → Option ℚ) (a : ℚ) (schedule : List κ)
    (hp : ∀ d ∈ schedule, ∀ p, priceMap d = some p → p ≠ 0) :
    (computeDCA priceMap schedule a).timeline =
      dcaPoints a 0 0 (pricedDates priceMap schedule) := by
  unfold computeDCA
  simp only
  rw [foldl_dcaStep priceMap a schedule hp]
  simp

theorem summary_eq_summaryOf {κ : Type} (priceMap : κ → Option ℚ) (a : ℚ) (schedule : List κ) :
    (computeDCA priceMap schedule a).summary =
      summaryOf (computeDCA priceMap schedule a).timeline.getLast? := rfl

/-! ## The sentiment scorer -/

/-- The function `includesChars` decides whether `w` is a block of consecutive
characters of `s`. -/
theorem includesChars_iff (w s : List Char) : includesChars w s = true ↔ w <:+: s := by
  induction s with
  | nil =>
    simp only [includesChars, List.isPrefixOf_iff_prefix, List.infix_nil, List.prefix_nil]
  | cons c s ih =>
    simp only [includesChars, Bool.or_eq_true, List.isPrefixOf_iff_prefix, ih,
      List.infix_cons_iff]

/-- The test `s.includes(w)` holds exactly when `s` is `a ++ w ++ b` for some `a`, `b`. -/
theorem includes_iff (s w : String) :
    includes s w = true ↔ ∃ a b : List Char, s.toList = a ++ w.toList ++ b := by
  unfold includes
  rw [includesChars_iff]
  constructor
  · rintro ⟨a, b, h⟩
    exact ⟨a, b, h.symm⟩
  · rintro ⟨a, b, h⟩
    exact ⟨a, b, h.symm⟩

theorem foldl_add_two (f : String → Bool) (l : List String) (init : Int) :
    l.foldl (fun score w => if f w then score + 2 else score) init =
      init + 2 * ((l.filter f).length : Int) := by
  induction l generalizing init with
  | nil => simp
  | cons w rest ih =>
    rw [List.foldl_cons, ih]
    by_cases h : f w = true
    · simp only [h, if_true, List.filter_cons_of_pos, List.length_cons]
      push_cast
      ring
    · simp only [h, if_false, List.filter_cons_of_neg, Bool.false_eq_true, not_false_eq_true]

theorem foldl_sub_two (f : String → Bool) (l : List String) (init : Int) :
    l.foldl (fun score w => if f w then score - 2 else score) init =
      init - 2 * ((l.filter f).length : Int) := by
  induction l generalizing init with
  | nil => simp
  | cons w rest ih =>
    rw [List.foldl_cons, ih]
    by_cases h : f w = true
    · simp only [h, if_true, List.filter_cons_of_pos, List.length_cons]
      push_cast
      ring
    · simp only [h, if_false, List.filter_cons_of_neg, Bool.false_eq_true, not_false_eq_true]

/-- The raw score is twice the number of positive entries found minus twice the number
of negative entries found. -/
theorem rawScore_eq (s : String) :
    rawScore s = 2 * (posHits s : Int) - 2 * (negHits s : Int) := by
  unfold rawScore posHits negHits
  simp only
  rw [foldl_sub_two, foldl_add_two]
  ring

theorem clampScore_eq (score : Int) : clampScore score = max (-20) (min 20 score) := by
  unfold clampScore
  simp only
  split_ifs <;> omega

theorem mathRound_intCast (n : Int) : mathRound (n : ℚ) = n := by
  unfold mathRound
  rw [Int.floor_eq_iff]
  constructor <;> norm_num

/-- The remapping of an even clamped score `2 * j` is the integer `50 + 5 * j`. -/
theorem mathRound_remap (j : Int) :
    mathRound (((((2 * j : Int) : ℚ) + 20) / 40) * 100) = 50 + 5 * j := by
  have : ((((2 * j : Int) : ℚ) + 20) / 40) * 100 = ((50 + 5 * j : Int) : ℚ) := by
    push_cast
    ring
  rw [this, mathRound_intCast]

theorem scoreText_of_ne (toLowerCase : String → String) (t : String) (ht : t ≠ "") :
    scoreText toLowerCase t =
      mathRound ((((clampScore (rawScore (toLowerCase t)) : Int) : ℚ) + 20) / 40 * 100) := by
  unfold scoreText
  rw [if_neg ht]

/-- The closed form of the score of a non-empty text. -/
theorem scoreText_closed (toLowerCase : String → String) (t : String) (ht : t ≠ "") :
    scoreText toLowerCase t =
      50 + 5 * max (-10) (min 10
        ((posHits (toLowerCase t) : Int) - (negHits (toLowerCase t) : Int))) := by
  rw [scoreText_of_ne toLowerCase t ht, clampScore_eq, rawScore_eq]
  have : max (-20) (min 20 (2 * (posHits (toLowerCase t) : Int) - 2 * (negHits (toLowerCase t) : Int)))
      = 2 * max (-10) (min 10
        ((posHits (toLowerCase t) : Int) - (negHits (toLowerCase t) : Int))) := by
    omega
  rw [this]
  exact mathRound_remap _

theorem foldl_add_eq_sum (l : List Int) (init : Int) :
    l.foldl (fun a b => a + b) init = init + l.sum := by
  induction l generalizing init with
  | nil => simp
  | cons x rest ih =>
    rw [List.foldl_cons, ih, List.sum_cons]
    ring

theorem aggregate_of_ne_nil (scores : List Int) (h : scores ≠ []) :
    aggregate scores = ⌊((scores.sum : Int) : ℚ) / (scores.length : ℚ) + 1 / 2⌋ := by
  unfold aggregate
  have hl : scores.length ≠ 0 := by
    intro h0
    exact h (List.length_eq_zero.mp h0)
  rw [if_neg hl]
  simp only [mathRound, foldl_add_eq_sum, zero_add]

theorem sum_bounds (scores : List Int) (h : ∀ s ∈ scores, 0 ≤ s ∧ s ≤ 100) :
    0 ≤ scores.sum ∧ scores.sum ≤ 100 * (scores.length : Int) := by
  induction scores with
  | nil => simp
  | cons x rest ih =>
    have hx := h x (List.mem_cons_self _ _)
    have := ih (fun s hs => h s (List.mem_cons_of_mem _ hs))
    simp only [List.sum_cons, List.length_cons]
    push_cast
    omega

theorem aggregate_range (scores : List Int) (h : ∀ s ∈ scores, 0 ≤ s ∧ s ≤ 100) :
    0 ≤ aggregate scores ∧ aggregate scores ≤ 100 := by
  by_cases hn : scores = []
  · subst hn
    simp [aggregate]
  · rw [aggregate_of_ne_nil scores hn]
    have hb := sum_bounds scores h
    have hlen : (0 : ℚ) < (scores.length : ℚ) := by
      have : 0 < scores.length := List.length_pos.mpr hn
      exact_mod_cast this
    have h0 : (0 : ℚ) ≤ ((scores.sum : Int) : ℚ) / (scores.length : ℚ) := by
      apply div_nonneg
      · exact_mod_cast hb.1
      · exact hlen.le
    have h1 : ((scores.sum : Int) : ℚ) / (scores.length : ℚ) ≤ 100 := by
      rw [div_le_iff₀ hlen]
      exact_mod_cast hb.2
    constructor
    · apply Int.floor_nonneg.mpr
      linarith
    · have : ⌊((scores.sum : Int) : ℚ) / (scores.length : ℚ) + 1 / 2⌋ < 101 := by
        rw [Int.floor_lt]
        have e : ((101 : Int) : ℚ) = 101 := by norm_num
        rw [e]
        linarith
      omega

theorem itemText_ne_empty (it : FeedItem) : itemText it ≠ "" := by
  intro h
  have hlen := congrArg String.length h
  unfold itemText at hlen
  rw [String.length_append, String.length_append] at hlen
  have h1 : (" " : String).length = 1 := rfl
  have h0 : ("" : String).length = 0 := rfl
  omega

theorem scoreText_range (toLowerCase : String → String) (t : String) :
    0 ≤ scoreText toLowerCase t ∧ scoreText toLowerCase t ≤ 100 := by
  by_cases ht : t = ""
  · subst ht
    simp [scoreText]
  · rw [scoreText_closed toLowerCase t ht]
    omega

theorem foldl_collect_mem (toLowerCase : String → String) (feeds : List (List FeedItem)) :
    ∀ (acc : List NewsItem),
      (∀ y ∈ acc, ∃ it : FeedItem, y = mkItem toLowerCase it) →
      ∀ y ∈ feeds.foldl
        (fun items feed => items ++ (feed.take 10).map (mkItem toLowerCase)) acc,
        ∃ it : FeedItem, y = mkItem toLowerCase it := by
  induction feeds with
  | nil => intro acc h y hy; exact h y hy
  | cons feed rest ih =>
    intro acc h y hy
    rw [List.foldl_cons] at hy
    refine ih _ ?_ y hy
    intro z hz
    rcases List.mem_append.mp hz with hz | hz
    · exact h z hz
    · obtain ⟨it, _, rfl⟩ := List.mem_map.mp hz
      exact ⟨it, rfl⟩

/-- Every entry of `items` was built by `mkItem` from a feed item. -/
theorem collectItems_mem (toLowerCase : String → String) (feeds : List (List FeedItem))
    (x : NewsItem) (hx : x ∈ collectItems toLowerCase feeds) :
    ∃ it : FeedItem, x = mkItem toLowerCase it :=
  foldl_collect_mem toLowerCase feeds [] (fun y hy => by simp at hy) x hx

/-! ## Monthly stepping from a day of the month that every month has -/

/-- A monthly step from a day of the month `≤ 28` lands on the same day of the next
calendar month. -/
theorem toISODate_advance_monthly (z : Int) (h : dateFromDay z ≤ 28) :
    toISODate (advance Cadence.monthly z) =
      if monthFromDay z = 11 then ⟨yearFromDay z + 1, 1, dateFromDay z⟩
      else ⟨yearFromDay z, monthFromDay z + 2, dateFromDay z⟩ := by
  have hm := monthFromDay_range z
  have hv := toISODate_valid z
  obtain ⟨_, _, hd1, _⟩ := hv
  simp only [toISODate] at hd1
  show toISODate (setMonth z (getMonth z + 1)) = _
  unfold setMonth getMonth
  by_cases h11 : monthFromDay z = 11
  · rw [if_pos h11]
    have e : makeDay (yearFromDay z) (monthFromDay z + 1) (dateFromDay z) =
        parseDate ⟨yearFromDay z + 1, 1, dateFromDay z⟩ := by
      unfold parseDate makeDay
      rw [h11]
      norm_num
    rw [e]
    apply toISODate_parseDate
    refine ⟨by norm_num, by norm_num, hd1, ?_⟩
    have := daysInMonth_cases (yearFromDay z + 1) 1 _ rfl
    simp only
    omega
  · rw [if_neg h11]
    have e : makeDay (yearFromDay z) (monthFromDay z + 1) (dateFromDay z) =
        parseDate ⟨yearFromDay z, monthFromDay z + 2, dateFromDay z⟩ := by
      unfold parseDate
      simp only
      congr 1
      omega
    rw [e]
    apply toISODate_parseDate
    refine ⟨by simp only; omega, by simp only; omega, hd1, ?_⟩
    have := daysInMonth_cases (yearFromDay z) (monthFromDay z + 2) _ rfl
    have := inLeapYear_cases (yearFromDay z)
    simp only
    omega

theorem monthIndex_advance_monthly (z : Int) (h : dateFromDay z ≤ 28) :
    dateFromDay (advance Cadence.monthly z) = dateFromDay z ∧
    monthIndex (toISODate (advance Cadence.monthly z)) = monthIndex (toISODate z) + 1 := by
  have hm := monthFromDay_range z
  have e := toISODate_advance_monthly z h
  have hday : dateFromDay (advance Cadence.monthly z) =
      (toISODate (advance Cadence.monthly z)).day := rfl
  rw [hday, e]
  unfold monthIndex
  by_cases h11 : monthFromDay z = 11
  · rw [if_pos h11]
    simp only [toISODate]
    exact ⟨trivial, by omega⟩
  · rw [if_neg h11]
    simp only [toISODate]
    exact ⟨trivial, by omega⟩

theorem scheduleDays_monthly_same_day (limit : Int) (d : Int) :
    dateFromDay d ≤ 28 →
      (∀ x ∈ scheduleDays Cadence.monthly d limit, dateFromDay x = dateFromDay d) ∧
      (scheduleDays Cadence.monthly d limit).map (fun x => monthIndex (toISODate x)) =
        (List.range (scheduleDays Cadence.monthly d limit).length).map
          (fun (i : Nat) => monthIndex (toISODate d) + (i : Int)) := by
  refine scheduleDays_induction Cadence.monthly limit
    (fun d l => dateFromDay d ≤ 28 →
      (∀ x ∈ l, dateFromDay x = dateFromDay d) ∧
      l.map (fun x => monthIndex (toISODate x)) =
        (List.range l.length).map (fun (i : Nat) => monthIndex (toISODate d) + (i : Int)))
    ?_ ?_ d
  · intro d _ _
    simp
  · intro d _ ih h28
    obtain ⟨hday, hidx⟩ := monthIndex_advance_monthly d h28
    obtain ⟨ih1, ih2⟩ := ih (by omega)
    refine ⟨?_, ?_⟩
    · intro x hx
      rcases List.mem_cons.mp hx with hx | hx
      · rw [hx]
      · rw [ih1 x hx, hday]
    · rw [List.map_cons, ih2, List.length_cons, List.range_succ_eq_map, List.map_cons,
        List.map_map]
      congr 1
      · simp
      · apply List.map_congr_left
        intro i _
        simp only [Function.comp, hidx, Nat.cast_succ]
        ring

/-- From a start on a day of the month `≤ 28`, the monthly schedule keeps that day of
the month and visits consecutive calendar months, one entry in each. -/
theorem buildBuySchedule_monthly_same_day (startDate endDate : ISODate)
    (hs : startDate.Valid) (h28 : startDate.day ≤ 28) :
    (∀ x ∈ buildBuySchedule startDate endDate Cadence.monthly, x.day = startDate.day) ∧
    (buildBuySchedule startDate endDate Cadence.monthly).map monthIndex =
      (List.range (buildBuySchedule startDate endDate Cadence.monthly).length).map
        (fun (i : Nat) => monthIndex startDate + (i : Int)) := by
  have hst : toISODate (parseDate startDate) = startDate := toISODate_parseDate startDate hs
  have hdd : dateFromDay (parseDate startDate) = startDate.day := by
    have : (toISODate (parseDate startDate)).day = startDate.day := by rw [hst]
    exact this
  obtain ⟨h1, h2⟩ := scheduleDays_monthly_same_day (parseDate endDate) (parseDate startDate)
    (by omega)
  unfold buildBuySchedule
  simp only
  refine ⟨?_, ?_⟩
  · intro x hx
    obtain ⟨z, hz, rfl⟩ := List.mem_map.mp hx
    show dateFromDay z = startDate.day
    rw [h1 z hz, hdd]
  · rw [List.map_map, List.length_map]
    rw [hst] at h2
    exact h2

/-! ## Properties of `buildBuySchedule` -/

/-- C6 (evaluation at the failing input): the monthly schedule from 2024-01-31 to
2024-04-30 is 2024-01-31, 2024-03-02, 2024-04-02: February has no entry, and the entries
after the first fall on day 2, which is neither day 31 nor the last day of their month. -/
theorem buildBuySchedule_monthly_overflow :
    (⟨2024, 1, 31⟩ : ISODate).Valid ∧ (⟨2024, 4, 30⟩ : ISODate).Valid ∧
    (⟨2024, 1, 31⟩ : ISODate) ≤ ⟨2024, 4, 30⟩ ∧
    buildBuySchedule ⟨2024, 1, 31⟩ ⟨2024, 4, 30⟩ Cadence.monthly =
      [⟨2024, 1, 31⟩, ⟨2024, 3, 2⟩, ⟨2024, 4, 2⟩] ∧
    (∀ x ∈ buildBuySchedule ⟨2024, 1, 31⟩ ⟨2024, 4, 30⟩ Cadence.monthly, x.month ≠ 2) ∧
    daysInMonth 2024 3 = 31 ∧ daysInMonth 2024 4 = 30 := by
  decide

/-! ## Properties of `computeDCA` -/

theorem scenarioPrices_pos (d : ISODate) (p : ℚ) (h : scenarioPrices d = some p) : 0 < p := by
  unfold scenarioPrices at h
  split_ifs at h
  · simp at h; rw [← h]; norm_num
  · simp at h; rw [← h]; norm_num

theorem scenario_timeline :
    (computeDCA scenarioPrices scenarioSchedule 100).timeline =
      [{ date := ⟨2024, 1, 1⟩, invested := 100, btc := 0.0025, value := 100, price := 40000 },
       { date := ⟨2024, 1, 8⟩, invested := 200, btc := 0.0025 + 100 / 44000, value := 210,
         price := 44000 }] := by
  simp [computeDCA, scenarioSchedule, dcaStep, scenarioPrices]
  norm_num

theorem posHits_surges :
    posHits (asciiLowerCase "BTC surges to new all-time high") = 2 ∧
    negHits (asciiLowerCase "BTC surges to new all-time high") = 0 := by
  decide

theorem negHits_hacked :
    posHits (asciiLowerCase "Exchange hacked, massive liquidations, prices crash") = 0 ∧
    negHits (asciiLowerCase "Exchange hacked, massive liquidations, prices crash") = 5 := by
  decide

theorem scoreText_surges : scoreText asciiLowerCase "BTC surges to new all-time high" = 60 := by
  rw [scoreText_closed _ _ (by decide), posHits_surges.1, posHits_surges.2]
  decide

theorem scoreText_hacked :
    scoreText asciiLowerCase "Exchange hacked, massive liquidations, prices crash" = 25 := by
  rw [scoreText_closed _ _ (by decide), negHits_hacked.1, negHits_hacked.2]
  decide

theorem scoreText_blank (toLowerCase : String → String) (h : toLowerCase " " = " ") :
    scoreText toLowerCase " " = 50 := by
  have hp : posHits " " = 0 := by decide
  have hn : negHits " " = 0 := by decide
  rw [scoreText_closed _ _ (by decide), h, hp, hn]
  decide

/-- C7: for every non-empty text `t`, `scoreText t` is
`round(((c + 20) / 40) * 100)` with `c` the value `2 * P - 2 * N` clamped to
`[-20, 20]`, `P` and `N` the numbers of entries of `POS` and of `NEG` (lists without
repetition) that occur in the lower-cased text; the score lies in `[0, 100]`, is `50`
when `P = N`, exceeds `50` exactly when `P > N` and is below `50` exactly when `P < N`;
the two sample headlines score above and below `50`. -/
theorem scoreText_formula :
    (∀ (toLowerCase : String → String) (t : String), t ≠ "" →
      scoreText toLowerCase t = mathRound
        (((((max (-20) (min 20
          (2 * (posHits (toLowerCase t) : Int) - 2 * (negHits (toLowerCase t) : Int))) : Int)
            : ℚ) + 20) / 40) * 100) ∧
      0 ≤ scoreText toLowerCase t ∧ scoreText toLowerCase t ≤ 100 ∧
      (posHits (toLowerCase t) = negHits (toLowerCase t) → scoreText toLowerCase t = 50) ∧
      (50 < scoreText toLowerCase t ↔ negHits (toLowerCase t) < posHits (toLowerCase t)) ∧
      (scoreText toLowerCase t < 50 ↔ posHits (toLowerCase t) < negHits (toLowerCase t))) ∧
    POS.Nodup ∧ NEG.Nodup ∧
    (∀ s w : String, includes s w = true ↔
      ∃ a b : List Char, s.toList = a ++ w.toList ++ b) ∧
    50 < scoreText asciiLowerCase "BTC surges to new all-time high" ∧
    scoreText asciiLowerCase "Exchange hacked, massive liquidations, prices crash" < 50 := by
  refine ⟨?_, by decide, by decide, includes_iff, ?_, ?_⟩
  · intro toLowerCase t ht
    refine ⟨?_, ?_⟩
    · rw [scoreText_of_ne toLowerCase t ht, clampScore_eq, rawScore_eq]
    · rw [scoreText_closed toLowerCase t ht]
      omega
  · rw [scoreText_surges]; decide
  · rw [scoreText_hacked]; decide

theorem scoreText_formula_witness :
    "HODL" ≠ "" ∧
    scoreText asciiLowerCase "HODL" = mathRound
      (((((max (-20) (min 20
        (2 * (posHits (asciiLowerCase "HODL") : Int) - 2 * (negHits (asciiLowerCase "HODL") : Int)))
          : Int) : ℚ) + 20) / 40) * 100) ∧
    0 ≤ scoreText asciiLowerCase "HODL" ∧ scoreText asciiLowerCase "HODL" ≤ 100 ∧
    (posHits (asciiLowerCase "HODL") = negHits (asciiLowerCase "HODL") →
      scoreText asciiLowerCase "HODL" = 50) ∧
    (50 < scoreText asciiLowerCase "HODL" ↔
      negHits (asciiLowerCase "HODL") < posHits (asciiLowerCase "HODL")) ∧
    (scoreText asciiLowerCase "HODL" < 50 ↔
      posHits (asciiLowerCase "HODL") < negHits (asciiLowerCase "HODL")) :=
  ⟨by decide, scoreText_formula.1 asciiLowerCase "HODL" (by decide)⟩

/-- C9: `aggregate([]) = 50`; for a non-empty list of integer scores `aggregate` is
`⌊mean + 1/2⌋`, the integer `r` with `r - 1/2 ≤ mean < r + 1/2`; when every score lies in
`[0, 100]` so does the result; and `aggregate([80, 20]) = 50`. -/
theorem aggregate_mean :
    aggregate [] = 50 ∧
    (∀ scores : List Int, scores ≠ [] →
      aggregate scores = ⌊((scores.sum : Int) : ℚ) / (scores.length : ℚ) + 1 / 2⌋ ∧
      ((aggregate scores : Int) : ℚ) - 1 / 2 ≤ ((scores.sum : Int) : ℚ) / (scores.length : ℚ) ∧
      ((scores.sum : Int) : ℚ) / (scores.length : ℚ) < ((aggregate scores : Int) : ℚ) + 1 / 2) ∧
    (∀ scores : List Int, (∀ s ∈ scores, 0 ≤ s ∧ s ≤ 100) →
      0 ≤ aggregate scores ∧ aggregate scores ≤ 100) ∧
    aggregate [80, 20] = 50 := by
  refine ⟨rfl, ?_, aggregate_range, ?_⟩
  · intro scores hne
    have h := aggregate_of_ne_nil scores hne
    refine ⟨h, ?_, ?_⟩
    · rw [h]
      have := Int.floor_le (((scores.sum : Int) : ℚ) / (scores.length : ℚ) + 1 / 2)
      linarith
    · rw [h]
      have := Int.lt_floor_add_one (((scores.sum : Int) : ℚ) / (scores.length : ℚ) + 1 / 2)
      linarith
  · rw [aggregate_of_ne_nil _ (by decide)]
    rw [Int.floor_eq_iff]
    norm_num

theorem aggregate_mean_witness :
    ([1, 2] : List Int) ≠ [] ∧
    (aggregate [1, 2] = ⌊((([1, 2] : List Int).sum : Int) : ℚ) /
        ((([1, 2] : List Int).length : Nat) : ℚ) + 1 / 2⌋ ∧
      ((aggregate [1, 2] : Int) : ℚ) - 1 / 2 ≤
        ((([1, 2] : List Int).sum : Int) : ℚ) / ((([1, 2] : List Int).length : Nat) : ℚ) ∧
      ((([1, 2] : List Int).sum : Int) : ℚ) / ((([1, 2] : List Int).length : Nat) : ℚ) <
        ((aggregate [1, 2] : Int) : ℚ) + 1 / 2) ∧
    (∀ s ∈ ([1, 2] : List Int), 0 ≤ s ∧ s ≤ 100) ∧
    (0 ≤ aggregate [1, 2] ∧ aggregate [1, 2] ≤ 100) :=
  ⟨by decide, aggregate_mean.2.1 [1, 2] (by decide), by decide,
    aggregate_mean.2.2.1 [1, 2] (by decide)⟩

/-- C10: the handler scores every feed item on `title + " " + snippet`, absent parts
replaced by the empty string; this text is never empty, so the score is the remapped
clamped raw score (never the value `0` of the empty-text branch) and lies in `[0, 100]`;
an item with neither title nor snippet is scored on `" "` and gets `50`; at most twenty
items are kept, each with a score in `[0, 100]`, and the overall score lies in
`[0, 100]`. -/
theorem handler_scores :
    (∀ it : FeedItem, itemText it ≠ "") ∧
    (∀ (toLowerCase : String → String) (it : FeedItem),
      (mkItem toLowerCase it).score = mathRound
        ((((clampScore (rawScore (toLowerCase (itemText it))) : Int) : ℚ) + 20) / 40 * 100) ∧
      0 ≤ (mkItem toLowerCase it).score ∧ (mkItem toLowerCase it).score ≤ 100) ∧
    (∀ (toLowerCase : String → String) (it : FeedItem),
      (it.title = none ∨ it.title = some "") →
      (it.contentSnippet = none ∨ it.contentSnippet = some "") →
      (it.content = none ∨ it.content = some "") →
      toLowerCase " " = " " →
      itemText it = " " ∧ (mkItem toLowerCase it).score = 50) ∧
    (∀ (toLowerCase : String → String) (sortItems : List NewsItem → List NewsItem)
        (feeds : List (List FeedItem)),
      (∀ l, (sortItems l).Perm l) →
      (trimmedItems toLowerCase sortItems feeds).length ≤ 20 ∧
      (∀ x ∈ trimmedItems toLowerCase sortItems feeds, 0 ≤ x.score ∧ x.score ≤ 100) ∧
      0 ≤ overallScore toLowerCase sortItems feeds ∧
      overallScore toLowerCase sortItems feeds ≤ 100) := by
  refine ⟨itemText_ne_empty, ?_, ?_, ?_⟩
  · intro toLowerCase it
    refine ⟨scoreText_of_ne toLowerCase _ (itemText_ne_empty it), ?_⟩
    exact scoreText_range toLowerCase _
  · intro toLowerCase it ht hs hc hl
    have htext : itemText it = " " := by
      unfold itemText
      rcases ht with ht | ht <;> rcases hs with hs | hs <;> rcases hc with hc | hc <;>
        rw [ht, hs, hc] <;> rfl
    refine ⟨htext, ?_⟩
    show scoreText toLowerCase (itemText it) = 50
    rw [htext]
    exact scoreText_blank toLowerCase hl
  · intro toLowerCase sortItems feeds hperm
    have hmem : ∀ x ∈ trimmedItems toLowerCase sortItems feeds,
        0 ≤ x.score ∧ x.score ≤ 100 := by
      intro x hx
      have h1 : x ∈ sortItems (collectItems toLowerCase feeds) := List.mem_of_mem_take hx
      have h2 : x ∈ collectItems toLowerCase feeds := (hperm _).mem_iff.mp h1
      obtain ⟨it, rfl⟩ := collectItems_mem toLowerCase feeds x h2
      exact scoreText_range toLowerCase _
    refine ⟨?_, hmem, ?_⟩
    · unfold trimmedItems
      rw [List.length_take]
      exact Nat.min_le_left _ _
    · apply aggregate_range
      intro s hs
      obtain ⟨x, hx, rfl⟩ := List.mem_map.mp hs
      exact hmem x hx

theorem handler_scores_witness :
    (asciiLowerCase " " = " ") ∧
    (itemText ⟨none, none, none, some "", none, none, none⟩ = " " ∧
      (mkItem asciiLowerCase ⟨none, none, none, some "", none, none, none⟩).score = 50) ∧
    (trimmedItems asciiLowerCase id
      [[⟨some "BTC surges to new all-time high", none, none, none, none, none, none⟩]]).length
        ≤ 20 ∧
    (∀ x ∈ trimmedItems asciiLowerCase id
      [[⟨some "BTC surges to new all-time high", none, none, none, none, none, none⟩]],
      0 ≤ x.score ∧ x.score ≤ 100) ∧
    0 ≤ overallScore asciiLowerCase id
      [[⟨some "BTC surges to new all-time high", none, none, none, none, none, none⟩]] ∧
    overallScore asciiLowerCase id
      [[⟨some "BTC surges to new all-time high", none, none, none, none, none, none⟩]] ≤ 100 :=
  ⟨by decide,
    handler_scores.2.2.1 asciiLowerCase ⟨none, none, none, some "", none, none, none⟩
      (Or.inl rfl) (Or.inr rfl) (Or.inl rfl) (by decide),
    handler_scores.2.2.2 asciiLowerCase id
      [[⟨some "BTC surges to new all-time high", none, none, none, none, none, none⟩]]
      (fun l => List.Perm.refl l)⟩

end DcaDashboard
